import Mathlib

/-!
Verification of the placeholder-inlining utility of the gsv-website build
toolkit (`src/kickstart-scripts/utility.mjs`, function `replacePlaceholder`).

The JavaScript function performs a global regex replacement on the input
string with the pattern

  `\x7b(app|deferred|svg):\x7b([\w|\-]\x7b0,\x7d)\x7d\x7d|\x7b(app|deferred|svg):\x7b(.+):\x7b(.+)\x7d\x7d\x7d`

For each match it strips all braces, splits on `:`, builds a fragment path
with Node `path.join`, and, when a file exists at that path, reads it,
optionally wraps it in an HTML comment banner (svg kind only), and recurses
on the wrapped content; otherwise the matched text is kept verbatim.  Errors
raised while handling a single match are caught and reported via `showError`.

Strings are modelled as `List Char` (JavaScript strings are sequences of
code units; all inputs of interest here are plain BMP text).  The filesystem
is a finite association list from paths to file states: absent, present but
unreadable (reading throws), or readable with contents.  Since the source
function is not structurally terminating, the embedding takes a fuel
parameter bounding the recursion depth; `none` means the fuel was exhausted.
The error reports emitted through `showError` are collected in a list.
-/

namespace Kickstart

/-- JavaScript `.` (no `s` flag): any char except line terminators. -/
def isDot (c : Char) : Bool :=
  !(c == '\n' || c == '\r' || c == Char.ofNat 8232 || c == Char.ofNat 8233)

/-- JavaScript `\w` (no `u` flag): ASCII letters, digits, underscore. -/
def isWordChar (c : Char) : Bool :=
  c.isAlphanum || c == '_'

/-- The character class `[\w|\-]` of the first alternative: word chars,
a literal bar, or a dash. -/
def isClassChar (c : Char) : Bool :=
  isWordChar c || c == '|' || c == '-'

/-- Match a literal character sequence at the head of the input, returning
the remainder on success. -/
def stripLit : List Char → List Char → Option (List Char)
  | [], l => some l
  | _ :: _, [] => none
  | p :: ps, c :: cs => if c = p then stripLit ps cs else none

/-- Length of the maximal head run of characters satisfying `p`. -/
def countWhile (p : Char → Bool) : List Char → Nat
  | [] => 0
  | c :: cs => if p c then countWhile p cs + 1 else 0

/-- JavaScript `String.prototype.split` with a single-character separator. -/
def splitSep (sep : Char) : List Char → List (List Char)
  | [] => [[]]
  | c :: cs =>
    if c = sep then [] :: splitSep sep cs
    else
      match splitSep sep cs with
      | [] => [[c]]
      | p :: ps => (c :: p) :: ps

/-- JavaScript `Array.prototype.join` with a single-character separator. -/
def joinSep (sep : Char) : List (List Char) → List Char
  | [] => []
  | [p] => p
  | p :: ps => p ++ sep :: joinSep sep ps

/-- The segment-normalisation loop of Node `path.posix.normalize`: drop empty
and `.` segments and resolve `..` against the stack (keeping leading `..`
segments on relative paths). -/
def normSegs (allowAbove : Bool) : List (List Char) → List (List Char) → List (List Char)
  | stack, [] => stack.reverse
  | stack, seg :: rest =>
    if seg = [] ∨ seg = ['.'] then normSegs allowAbove stack rest
    else if seg = ['.', '.'] then
      match stack with
      | [] => normSegs allowAbove (if allowAbove then [seg] else []) rest
      | top :: stk =>
        if top = ['.', '.'] then normSegs allowAbove (seg :: top :: stk) rest
        else normSegs allowAbove stk rest
    else normSegs allowAbove (seg :: stack) rest

/-- Node `path.posix.normalize`. -/
def pathNormalize (p : List Char) : List Char :=
  if p = [] then ['.']
  else
    let isAbs := decide (p.head? = some '/')
    let trailing := decide (p.getLast? = some '/')
    let core := joinSep '/' (normSegs (!isAbs) [] (splitSep '/' p))
    if core = [] then
      if isAbs then ['/'] else if trailing then ['.', '/'] else ['.']
    else
      (if isAbs then '/' :: core else core) ++ (if trailing then ['/'] else [])

/-- Node `path.posix.join`: drop empty arguments, join with `/`, normalize;
`.` if everything was empty. -/
def pathJoin (parts : List (List Char)) : List Char :=
  let filtered := parts.filter (fun p => !p.isEmpty)
  if filtered = [] then ['.']
  else pathNormalize (joinSep '/' filtered)

/-! ### The matcher for the placeholder regex

The regex engine is embedded concretely for this one pattern.  Both
alternatives start with a brace, one of the literal kinds, a colon and a
brace; the first alternative then takes a greedy (deterministic, since `\x7d`
is not in the class) run of class characters followed by two closing braces,
the second takes two greedy backtracking `(.+)` groups separated by `:\x7b`
and closed by three braces. -/

/-- The alternation `(app|deferred|svg)`, tried left to right. -/
def matchKind (l : List Char) : Option (List Char) :=
  match stripLit "app".toList l with
  | some r => some r
  | none =>
    match stripLit "deferred".toList l with
    | some r => some r
    | none => stripLit "svg".toList l

/-- Tail of the first alternative after the opening: a greedy class run then
two closing braces. -/
def matchAlt1Tail (l : List Char) : Option (List Char) :=
  stripLit ['}', '}'] (l.drop (countWhile isClassChar l))

/-- One candidate end position for the second `(.+)` group: the three closing
braces must follow. -/
def g2Step (r : List Char) (j : Nat) : Option (List Char) :=
  stripLit ['}', '}', '}'] (r.drop j)

/-- Greedy backtracking loop for the second `(.+)` group: longest first. -/
def g2From : Nat → List Char → Option (List Char)
  | 0, _ => none
  | k+1, r =>
    match g2Step r (k+1) with
    | some rest => some rest
    | none => g2From k r

/-- The suffix `(.+)\x7d\x7d\x7d` of the second alternative. -/
def matchG2 (r : List Char) : Option (List Char) :=
  g2From (countWhile isDot r) r

/-- One candidate end position for the first `(.+)` group: `:\x7b` must
follow, then the rest of the alternative. -/
def g1Step (r : List Char) (j : Nat) : Option (List Char) :=
  match stripLit [':', '{'] (r.drop j) with
  | none => none
  | some r2 => matchG2 r2

/-- Greedy backtracking loop for the first `(.+)` group: longest first. -/
def g1From : Nat → List Char → Option (List Char)
  | 0, _ => none
  | k+1, r =>
    match g1Step r (k+1) with
    | some rest => some rest
    | none => g1From k r

/-- Tail of the second alternative after the opening. -/
def matchAlt2Tail (l : List Char) : Option (List Char) :=
  g1From (countWhile isDot l) l

/-- Try to match the whole pattern at the head of `l`; on success return the
remainder after the match (first alternative preferred, as in the regex). -/
def matchAt (l : List Char) : Option (List Char) :=
  match stripLit ['{'] l with
  | none => none
  | some l1 =>
    match matchKind l1 with
    | none => none
    | some l2 =>
      match stripLit [':', '{'] l2 with
      | none => none
      | some l3 =>
        match matchAlt1Tail l3 with
        | some rest => some rest
        | none => matchAlt2Tail l3

/-- Leftmost match search, as performed by global `String.prototype.replace`:
returns the text before the match, the matched text and the rest. -/
def findMatch : List Char → Option (List Char × List Char × List Char)
  | [] => none
  | c :: cs =>
    match matchAt (c :: cs) with
    | some rest => some ([], (c :: cs).take ((c :: cs).length - rest.length), rest)
    | none =>
      match findMatch cs with
      | some (pre, m, rest) => some (c :: pre, m, rest)
      | none => none

/-! ### Filesystem model and token handling

`FS` is a finite association list from paths to file states: a key mapped to
`some c` is a readable file with contents `c`; a key mapped to `none` exists
(`fs.existsSync` is true) but reading it throws; an absent key does not
exist.  The error messages passed to `showError` are collected in a list;
the message recorded for a failed read is the fragment path. -/

abbrev FS : Type := List (List Char × Option (List Char))

/-- `fs.existsSync` / `fs.readFileSync` combined: first entry wins. -/
def lookupFS : FS → List Char → Option (Option (List Char))
  | [], _ => none
  | (q, v) :: rest, p => if q = p then some v else lookupFS rest p

/-- Lines 240: strip every brace from the matched text
(`string.replace(new RegExp('(\x7b|\x7d)*', 'g'), '')`). -/
def stripBraces (m : List Char) : List Char :=
  m.filter (fun c => !(c == '{' || c == '}'))

/-- Lines 240: the filepath parts, `match` in the source
(brace-stripped matched text split on `:`). -/
def tokenParts (m : List Char) : List (List Char) :=
  splitSep ':' (stripBraces m)

/-- Lines 243-246: `isSvg`, computed from `match[0]` before remapping. -/
def tokenIsSvg (m : List Char) : Bool :=
  (tokenParts m).headD [] = "svg".toList

/-- Lines 243-279: the fragment path.  `type` is `match[0]`, `folder` is
`match[1]`, `file` is `match[2]` when present and `folder` otherwise; any
kind other than `app` is remapped below `app/_`; the extension is `.svg` for
the svg kind and `.html` otherwise; the parts are joined by `path.join`.
A matched token always contains a colon outside braces, so `parts` always
has at least two entries. -/
def tokenFilepath (parts : List (List Char)) : List Char :=
  let type := parts.headD []
  let extension := if type = "svg".toList then ".svg".toList else ".html".toList
  let folder := (parts.drop 1).headD []
  let file := if 2 < parts.length then (parts.drop 2).headD [] else folder
  let type2 := if type = "app".toList then type else "app/_".toList ++ type
  pathJoin ["components".toList, type2, folder, file ++ extension]

/-- The fragment path of a matched token. -/
def tokenPath (m : List Char) : List Char :=
  tokenFilepath (tokenParts m)

/-- Lines 282-285: the starting comment banner, only for the svg kind. -/
def tokenStart (m : List Char) : List Char :=
  if tokenIsSvg m then "<!-- START ".toList ++ tokenPath m ++ " -->\n".toList else []

/-- Lines 282-285: the ending comment banner, only for the svg kind. -/
def tokenEnd (m : List Char) : List Char :=
  if tokenIsSvg m then "<!-- END ".toList ++ tokenPath m ++ " -->\n".toList else []

/-- Line 297: `fileContent = start + fileContent + end`. -/
def tokenWrap (m c : List Char) : List Char :=
  tokenStart m ++ c ++ tokenEnd m

/-- The replacement callback for one matched token (lines 234-309): absent
path keeps the token; a throwing read is caught, reported and keeps the
token; a readable file is wrapped and resolved recursively through
`recur`. -/
def handleToken (fs : FS) (recur : List Char → Option (List Char × List (List Char)))
    (m : List Char) : Option (List Char × List (List Char)) :=
  match lookupFS fs (tokenPath m) with
  | none => some (m, [])
  | some none => some (m, [tokenPath m])
  | some (some c) => recur (tokenWrap m c)

/-- A segment of the input as seen by the global replace: literal text
between matches, or a matched token. -/
inductive Seg
  | lit (s : List Char)
  | tok (m : List Char)
deriving DecidableEq

/-- The text of a segment. -/
def segStr : Seg → List Char
  | .lit s => s
  | .tok m => m

/-- Cut the input into literal pieces and matches, scanning left to right as
the global replace does.  The fuel is an upper bound on the number of
matches; `tokenize` supplies the input length, which always suffices. -/
def tokenizeGo : Nat → List Char → List Seg
  | 0, s => [Seg.lit s]
  | k+1, s =>
    match findMatch s with
    | none => [Seg.lit s]
    | some (pre, m, rest) => Seg.lit pre :: Seg.tok m :: tokenizeGo k rest

/-- The segments of the input under the placeholder regex. -/
def tokenize (s : List Char) : List Seg :=
  tokenizeGo s.length s

/-- Reassemble the output of the global replace: literal segments are kept,
token segments are replaced by the callback result; errors accumulate in
order.  `none` propagates fuel exhaustion from the recursive calls. -/
def processSegs (fs : FS) (recur : List Char → Option (List Char × List (List Char))) :
    List Seg → Option (List Char × List (List Char))
  | [] => some ([], [])
  | Seg.lit l :: rest =>
    match processSegs fs recur rest with
    | some (r, e) => some (l ++ r, e)
    | none => none
  | Seg.tok m :: rest =>
    match handleToken fs recur m, processSegs fs recur rest with
    | some (r1, e1), some (r2, e2) => some (r1 ++ r2, e1 ++ e2)
    | _, _ => none

/-- The embedding of `replacePlaceholder` (lines 228-311) over the
filesystem `fs`, with recursion depth bounded by the fuel: `some (out, errs)`
is the returned string together with the `showError` reports, `none` means
the recursion exceeded the fuel. -/
def replacePlaceholder (fs : FS) : Nat → List Char → Option (List Char × List (List Char))
  | 0, _ => none
  | n+1, s => processSegs fs (replacePlaceholder fs n) (tokenize s)

/-- The call terminates on `s`: some recursion depth suffices. -/
def Terminates (fs : FS) (s : List Char) : Prop :=
  ∃ n r, replacePlaceholder fs n s = some r

/-- One resolution step: the input `s` contains a matched token whose
fragment path is a readable file, and `w` is the wrapped contents on which
the function recurses. -/
def StepR (fs : FS) (s w : List Char) : Prop :=
  ∃ m c, Seg.tok m ∈ tokenize s ∧ lookupFS fs (tokenPath m) = some (some c) ∧
    w = tokenWrap m c

/-- A resolution cycle is reachable from `s`. -/
def CyclicFrom (fs : FS) (s : List Char) : Prop :=
  ∃ t, Relation.ReflTransGen (StepR fs) s t ∧ Relation.TransGen (StepR fs) t t

/-! ### Basic lemmas about the matcher -/

theorem stripLit_eq_some {p l r : List Char} (h : stripLit p l = some r) : l = p ++ r := by
  induction p generalizing l with
  | nil =>
    simp only [stripLit, Option.some.injEq] at h
    simp [h]
  | cons a ps ih =>
    cases l with
    | nil => simp [stripLit] at h
    | cons c cs =>
      simp only [stripLit] at h
      split at h
      · rename_i hc
        subst hc
        simpa using ih h
      · exact absurd h (by simp)

theorem stripLit_self (p r : List Char) : stripLit p (p ++ r) = some r := by
  induction p with
  | nil => rfl
  | cons a ps ih => simp [stripLit, ih]

theorem stripLit_suffix {p l r : List Char} (h : stripLit p l = some r) : r <:+ l :=
  ⟨p, (stripLit_eq_some h).symm⟩

theorem countWhile_all {p : Char → Bool} {l : List Char} (h : ∀ c ∈ l, p c = true) :
    countWhile p l = l.length := by
  induction l with
  | nil => rfl
  | cons c cs ih =>
    simp [countWhile, h c (by simp), ih (fun d hd => h d (by simp [hd]))]

theorem countWhile_append_stop {p : Char → Bool} {a : List Char} {x : Char} {t : List Char}
    (ha : ∀ c ∈ a, p c = true) (hx : p x = false) :
    countWhile p (a ++ x :: t) = a.length := by
  induction a with
  | nil => simp [countWhile, hx]
  | cons c cs ih =>
    simp [countWhile, ha c (by simp), ih (fun d hd => ha d (by simp [hd]))]

theorem g2From_suffix {k : Nat} {r rest : List Char} (h : g2From k r = some rest) :
    rest <:+ r := by
  induction k with
  | zero => simp [g2From] at h
  | succ k ih =>
    unfold g2From at h
    cases hs : g2Step r (k+1) with
    | some x =>
      rw [hs] at h
      cases h
      exact (stripLit_suffix hs).trans (List.drop_suffix _ _)
    | none =>
      rw [hs] at h
      exact ih h

theorem matchG2_suffix {r rest : List Char} (h : matchG2 r = some rest) : rest <:+ r :=
  g2From_suffix h

theorem g1Step_suffix {r rest : List Char} {j : Nat} (h : g1Step r j = some rest) :
    rest <:+ r := by
  unfold g1Step at h
  cases hs : stripLit [':', '{'] (r.drop j) with
  | none => rw [hs] at h; exact absurd h (by simp)
  | some r2 =>
    rw [hs] at h
    exact (matchG2_suffix h).trans ((stripLit_suffix hs).trans (List.drop_suffix _ _))

theorem g1From_suffix {k : Nat} {r rest : List Char} (h : g1From k r = some rest) :
    rest <:+ r := by
  induction k with
  | zero => simp [g1From] at h
  | succ k ih =>
    unfold g1From at h
    cases hs : g1Step r (k+1) with
    | some x =>
      rw [hs] at h
      cases h
      exact g1Step_suffix hs
    | none =>
      rw [hs] at h
      exact ih h

theorem matchKind_suffix {l rest : List Char} (h : matchKind l = some rest) : rest <:+ l := by
  unfold matchKind at h
  cases h1 : stripLit "app".toList l with
  | some r => rw [h1] at h; cases h; exact stripLit_suffix h1
  | none =>
    rw [h1] at h
    cases h2 : stripLit "deferred".toList l with
    | some r => rw [h2] at h; cases h; exact stripLit_suffix h2
    | none => rw [h2] at h; exact stripLit_suffix h

theorem matchAt_suffix {l rest : List Char} (h : matchAt l = some rest) :
    rest <:+ l ∧ rest.length < l.length := by
  unfold matchAt at h
  split at h
  · exact absurd h (by simp)
  next l1 h1 =>
    have hl : l = '{' :: l1 := stripLit_eq_some h1
    split at h
    · exact absurd h (by simp)
    next l2 h2 =>
      split at h
      · exact absurd h (by simp)
      next l3 h3 =>
        have hsuf3 : l3 <:+ l1 :=
          (stripLit_suffix h3).trans (matchKind_suffix h2)
        have hrest : rest <:+ l1 := by
          split at h
          next x h4 =>
            cases h
            exact ((stripLit_suffix h4).trans (List.drop_suffix _ _)).trans hsuf3
          next h4 =>
            exact (g1From_suffix h).trans hsuf3
        constructor
        · exact hrest.trans ⟨['{'], hl.symm⟩
        · have := hrest.length_le
          simp [hl]
          omega

theorem findMatch_eq_some {s pre m rest : List Char}
    (h : findMatch s = some (pre, m, rest)) :
    pre ++ (m ++ rest) = s ∧ 0 < m.length := by
  induction s generalizing pre m rest with
  | nil => simp [findMatch] at h
  | cons c cs ih =>
    unfold findMatch at h
    cases hm : matchAt (c :: cs) with
    | some r =>
      rw [hm] at h
      obtain ⟨hsuf, hlt⟩ := matchAt_suffix hm
      obtain ⟨t, ht⟩ := hsuf
      have hl2 := congrArg List.length ht
      simp only [List.length_append, List.length_cons] at hl2
      have hlen : t.length = (c :: cs).length - r.length := by
        simp only [List.length_cons]
        omega
      have hm' : (c :: cs).take ((c :: cs).length - r.length) = t := by
        rw [← hlen, ← ht, List.take_left]
      cases h
      rw [hm']
      refine ⟨by simpa using ht, ?_⟩
      simp only [List.length_cons] at hlt
      omega
    | none =>
      rw [hm] at h
      cases hf : findMatch cs with
      | none => rw [hf] at h; exact absurd h (by simp)
      | some x =>
        obtain ⟨p, mm, r⟩ := x
        rw [hf] at h
        cases h
        obtain ⟨hcat, hpos⟩ := ih hf
        exact ⟨by simp [← hcat], hpos⟩

theorem findMatch_rest_lt {s pre m rest : List Char}
    (h : findMatch s = some (pre, m, rest)) : rest.length < s.length := by
  obtain ⟨hcat, hpos⟩ := findMatch_eq_some h
  have := congrArg List.length hcat
  simp at this
  omega

/-- A match at the head of the input is found first, with empty preceding
text. -/
theorem findMatch_head {tok t : List Char} (hne : tok ≠ [])
    (hm : matchAt (tok ++ t) = some t) : findMatch (tok ++ t) = some ([], tok, t) := by
  cases tok with
  | nil => exact absurd rfl hne
  | cons c tk =>
    have hm' : matchAt (c :: (tk ++ t)) = some t := by simpa using hm
    have htake : List.take ((c :: (tk ++ t)).length - t.length) (c :: (tk ++ t)) = c :: tk := by
      have h1 : (c :: (tk ++ t)).length - t.length = (c :: tk).length := by
        simp
        omega
      rw [h1, ← List.cons_append, List.take_left]
    simp only [List.cons_append, findMatch, List.append_eq, hm', htake]

/-! ### Tokenisation lemmas -/

theorem tokenizeGo_nil (k : Nat) : tokenizeGo k [] = [Seg.lit []] := by
  cases k <;> simp [tokenizeGo, findMatch]

theorem tokenizeGo_eq_of_le :
    ∀ (k₁ k₂ : Nat) (s : List Char), s.length ≤ k₁ → s.length ≤ k₂ →
      tokenizeGo k₁ s = tokenizeGo k₂ s := by
  intro k₁
  induction k₁ with
  | zero =>
    intro k₂ s h₁ _
    have : s = [] := List.eq_nil_of_length_eq_zero (Nat.le_zero.mp h₁)
    subst this
    rw [tokenizeGo_nil, tokenizeGo_nil]
  | succ k ih =>
    intro k₂ s h₁ h₂
    cases s with
    | nil => rw [tokenizeGo_nil, tokenizeGo_nil]
    | cons c cs =>
      cases k₂ with
      | zero => simp at h₂
      | succ k₂' =>
        cases hfm : findMatch (c :: cs) with
        | none => simp [tokenizeGo, hfm]
        | some x =>
          obtain ⟨pre, m, rest⟩ := x
          have hlt := findMatch_rest_lt hfm
          simp only [List.length_cons] at hlt h₁ h₂
          simp only [tokenizeGo, hfm]
          rw [ih k₂' rest (by omega) (by omega)]

theorem tokenize_cons {s pre m rest : List Char}
    (hfm : findMatch s = some (pre, m, rest)) :
    tokenize s = Seg.lit pre :: Seg.tok m :: tokenize rest := by
  cases s with
  | nil => simp [findMatch] at hfm
  | cons c cs =>
    have hlt := findMatch_rest_lt hfm
    simp only [List.length_cons] at hlt
    simp only [tokenize, List.length_cons, tokenizeGo, hfm]
    rw [tokenizeGo_eq_of_le cs.length rest.length rest (by omega) (le_refl rest.length)]

theorem tokenize_of_no_match {s : List Char} (hfm : findMatch s = none) :
    tokenize s = [Seg.lit s] := by
  cases s with
  | nil => rw [tokenize, tokenizeGo_nil]
  | cons c cs => simp [tokenize, tokenizeGo, hfm]

/-- The concatenated text of a segment list. -/
def concatSegs (segs : List Seg) : List Char :=
  segs.foldr (fun seg acc => segStr seg ++ acc) []

theorem tokenize_concat_aux :
    ∀ (n : Nat) (s : List Char), s.length ≤ n → concatSegs (tokenize s) = s := by
  intro n
  induction n with
  | zero =>
    intro s h
    have : s = [] := List.eq_nil_of_length_eq_zero (Nat.le_zero.mp h)
    subst this
    rfl
  | succ n ih =>
    intro s h
    cases hfm : findMatch s with
    | none => simp [tokenize_of_no_match hfm, concatSegs, segStr]
    | some x =>
      obtain ⟨pre, m, rest⟩ := x
      have hlt := findMatch_rest_lt hfm
      obtain ⟨hcat, _⟩ := findMatch_eq_some hfm
      rw [tokenize_cons hfm]
      show pre ++ (m ++ concatSegs (tokenize rest)) = s
      rw [ih rest (by omega), hcat]

theorem tokenize_concat (s : List Char) : concatSegs (tokenize s) = s :=
  tokenize_concat_aux s.length s (le_refl _)

/-! ### Processing lemmas -/

theorem processSegs_of_verbatim {fs : FS}
    {recur : List Char → Option (List Char × List (List Char))} {segs : List Seg}
    (h : ∀ m, Seg.tok m ∈ segs → handleToken fs recur m = some (m, [])) :
    processSegs fs recur segs = some (concatSegs segs, []) := by
  induction segs with
  | nil => rfl
  | cons seg rest ih =>
    have hrest := ih (fun m hm => h m (by simp [hm]))
    cases seg with
    | lit l =>
      simp only [processSegs, hrest]
      rfl
    | tok m =>
      simp only [processSegs, hrest, h m (by simp)]
      rfl

theorem processSegs_none_of_tok {fs : FS}
    {recur : List Char → Option (List Char × List (List Char))} {segs : List Seg}
    {m : List Char} (hmem : Seg.tok m ∈ segs)
    (hnone : handleToken fs recur m = none) :
    processSegs fs recur segs = none := by
  induction segs with
  | nil => simp at hmem
  | cons seg rest ih =>
    rcases List.mem_cons.mp hmem with heq | hmem'
    · subst heq
      simp [processSegs, hnone]
    · have hrest := ih hmem'
      cases seg with
      | lit l => simp [processSegs, hrest]
      | tok m' =>
        simp only [processSegs, hrest]
        cases handleToken fs recur m' <;> rfl

theorem handleToken_mono {fs : FS}
    {r r' : List Char → Option (List Char × List (List Char))}
    (hrec : ∀ t x, r t = some x → r' t = some x)
    {m : List Char} {x : List Char × List (List Char)}
    (h : handleToken fs r m = some x) : handleToken fs r' m = some x := by
  unfold handleToken at h ⊢
  cases hl : lookupFS fs (tokenPath m) with
  | none => rw [hl] at h; exact h
  | some v =>
    cases v with
    | none => rw [hl] at h; exact h
    | some c => rw [hl] at h; exact hrec _ _ h

theorem processSegs_mono {fs : FS}
    {r r' : List Char → Option (List Char × List (List Char))}
    (hrec : ∀ t x, r t = some x → r' t = some x) {segs : List Seg}
    {y : List Char × List (List Char)}
    (h : processSegs fs r segs = some y) : processSegs fs r' segs = some y := by
  induction segs generalizing y with
  | nil => exact h
  | cons seg rest ih =>
    cases seg with
    | lit l =>
      simp only [processSegs] at h ⊢
      cases hr : processSegs fs r rest with
      | none => rw [hr] at h; exact absurd h (by simp)
      | some z =>
        rw [hr] at h
        rw [ih hr]
        exact h
    | tok m =>
      simp only [processSegs] at h ⊢
      cases hh : handleToken fs r m with
      | none => rw [hh] at h; exact absurd h (by simp)
      | some x1 =>
        rw [hh] at h
        cases hr : processSegs fs r rest with
        | none => rw [hr] at h; exact absurd h (by simp)
        | some x2 =>
          rw [hr] at h
          rw [handleToken_mono hrec hh, ih hr]
          exact h

theorem replacePlaceholder_mono_succ (fs : FS) :
    ∀ (n : Nat) (s : List Char) (x : List Char × List (List Char)),
      replacePlaceholder fs n s = some x → replacePlaceholder fs (n+1) s = some x := by
  intro n
  induction n with
  | zero => intro s x h; simp [replacePlaceholder] at h
  | succ n ih =>
    intro s x h
    simp only [replacePlaceholder] at h ⊢
    exact processSegs_mono (fun t y hy => ih t y hy) h

theorem replacePlaceholder_mono {fs : FS} {n n' : Nat} (hle : n ≤ n')
    {s : List Char} {x : List Char × List (List Char)}
    (h : replacePlaceholder fs n s = some x) : replacePlaceholder fs n' s = some x := by
  induction hle with
  | refl => exact h
  | step _ ih => exact replacePlaceholder_mono_succ fs _ _ _ ih

/-! ### Split, join and path lemmas -/

theorem splitSep_no_sep {sep : Char} {a : List Char} (h : ∀ c ∈ a, c ≠ sep) :
    splitSep sep a = [a] := by
  induction a with
  | nil => rfl
  | cons c cs ih =>
    have hc : c ≠ sep := h c (by simp)
    have hcs := ih (fun d hd => h d (by simp [hd]))
    simp [splitSep, hc, hcs]

theorem splitSep_append_sep {sep : Char} {a b : List Char} (h : ∀ c ∈ a, c ≠ sep) :
    splitSep sep (a ++ sep :: b) = a :: splitSep sep b := by
  induction a with
  | nil => simp [splitSep]
  | cons c cs ih =>
    have hc : c ≠ sep := h c (by simp)
    have hcs := ih (fun d hd => h d (by simp [hd]))
    simp [splitSep, hc, hcs]

theorem splitSep_ne_nil (sep : Char) (l : List Char) : splitSep sep l ≠ [] := by
  cases l with
  | nil => simp [splitSep]
  | cons c cs =>
    simp only [splitSep]
    split
    · simp
    · split <;> simp

theorem joinSep_cons_cons (sep : Char) (p q : List Char) (r : List (List Char)) :
    joinSep sep (p :: q :: r) = p ++ sep :: joinSep sep (q :: r) := rfl

theorem joinSep_splitSep (sep : Char) (l : List Char) :
    joinSep sep (splitSep sep l) = l := by
  induction l with
  | nil => rfl
  | cons c cs ih =>
    rcases hsp : splitSep sep cs with _ | ⟨p, ps⟩
    · exact absurd hsp (splitSep_ne_nil sep cs)
    · rw [hsp] at ih
      by_cases hc : c = sep
      · simp only [splitSep, if_pos hc, hsp, joinSep_cons_cons]
        simp [hc, ih]
      · simp only [splitSep, if_neg hc, hsp]
        cases ps with
        | nil =>
          show c :: p = c :: cs
          have : joinSep sep [p] = p := rfl
          rw [this] at ih
          rw [ih]
        | cons q qs =>
          rw [joinSep_cons_cons] at ih ⊢
          simp only [List.cons_append]
          rw [ih]

/-- A path segment that survives normalisation unchanged. -/
def PlainSeg (s : List Char) : Prop :=
  s ≠ [] ∧ (∀ ch ∈ s, ch ≠ '/') ∧ s ≠ ['.'] ∧ s ≠ ['.', '.']

theorem normSegs_plain {ab : Bool} {segs : List (List Char)}
    (h : ∀ seg ∈ segs, seg ≠ [] ∧ seg ≠ ['.'] ∧ seg ≠ ['.', '.']) :
    ∀ stack, normSegs ab stack segs = stack.reverse ++ segs := by
  induction segs with
  | nil => intro stack; simp [normSegs]
  | cons seg rest ih =>
    intro stack
    obtain ⟨h1, h2, h3⟩ := h seg (by simp)
    have hrest := ih (fun x hx => h x (by simp [hx]))
    have hc1 : ¬(seg = [] ∨ seg = ['.']) := by simp [h1, h2]
    have step : normSegs ab stack (seg :: rest) = normSegs ab (seg :: stack) rest := by
      simp only [normSegs]
      rw [if_neg hc1, if_neg h3]
    rw [step, hrest (seg :: stack)]
    simp

theorem pathNormalize_plain {p : List Char} (hne : p ≠ [])
    (hhead : p.head? ≠ some '/') (hlast : p.getLast? ≠ some '/')
    (hsegs : ∀ seg ∈ splitSep '/' p, seg ≠ [] ∧ seg ≠ ['.'] ∧ seg ≠ ['.', '.']) :
    pathNormalize p = p := by
  unfold pathNormalize
  rw [if_neg hne]
  simp only [decide_eq_false hhead, decide_eq_false hlast, Bool.not_false]
  rw [normSegs_plain hsegs []]
  simp only [List.reverse_nil, List.nil_append, joinSep_splitSep]
  rw [if_neg hne]
  simp

theorem pathJoin_eq {parts : List (List Char)} (hne : parts ≠ [])
    (hall : ∀ p ∈ parts, p ≠ [])
    (hhead : (joinSep '/' parts).head? ≠ some '/')
    (hlast : (joinSep '/' parts).getLast? ≠ some '/')
    (hsegs : ∀ seg ∈ splitSep '/' (joinSep '/' parts),
      seg ≠ [] ∧ seg ≠ ['.'] ∧ seg ≠ ['.', '.']) :
    pathJoin parts = joinSep '/' parts := by
  have hfilter : parts.filter (fun p => !p.isEmpty) = parts := by
    rw [List.filter_eq_self]
    intro p hp
    simpa using hall p hp
  have hjne : joinSep '/' parts ≠ [] := by
    intro hj
    rw [hj] at hhead
    cases parts with
    | nil => exact hne rfl
    | cons a rest =>
      cases rest with
      | nil =>
        exact hall a (by simp) (by simpa [joinSep] using hj)
      | cons b r2 =>
        have : a ++ '/' :: joinSep '/' (b :: r2) = [] := hj
        simp at this
  unfold pathJoin
  rw [hfilter, if_neg hne]
  exact pathNormalize_plain hjne hhead hlast hsegs

/-! ### Symbolic facts about simple two-part tokens -/

/-- The three admissible kinds. -/
def IsKind (k : List Char) : Prop :=
  k = "app".toList ∨ k = "deferred".toList ∨ k = "svg".toList

theorem isClassChar_ne {c : Char} (h : isClassChar c = true) {d : Char}
    (hd : isClassChar d = false) : c ≠ d := by
  intro heq
  subst heq
  rw [h] at hd
  simp at hd

theorem isDot_of_isClassChar {c : Char} (h : isClassChar c = true) : isDot c = true := by
  have h1 : c ≠ '\n' := isClassChar_ne h (by decide)
  have h2 : c ≠ '\r' := isClassChar_ne h (by decide)
  have h3 : c ≠ Char.ofNat 8232 := isClassChar_ne h (by decide)
  have h4 : c ≠ Char.ofNat 8233 := isClassChar_ne h (by decide)
  simp [isDot, h1, h2, h3, h4]

theorem matchKind_kind {k x : List Char} (hk : IsKind k) :
    matchKind (k ++ x) = some x := by
  rcases hk with hk | hk | hk <;> subst hk
  · show matchKind ("app".toList ++ x) = some x
    unfold matchKind
    rw [stripLit_self]
  · have h1 : stripLit "app".toList ("deferred".toList ++ x) = none := rfl
    unfold matchKind
    rw [h1, stripLit_self]
  · have h1 : stripLit "app".toList ("svg".toList ++ x) = none := rfl
    have h2 : stripLit "deferred".toList ("svg".toList ++ x) = none := rfl
    unfold matchKind
    rw [h1, h2, stripLit_self]

theorem matchAt_alt1 {k a t : List Char} (hk : IsKind k)
    (ha : ∀ c ∈ a, isClassChar c = true) :
    matchAt ('{' :: (k ++ ':' :: '{' :: (a ++ '}' :: '}' :: t))) = some t := by
  have h1 : stripLit ['{'] ('{' :: (k ++ ':' :: '{' :: (a ++ '}' :: '}' :: t))) =
      some (k ++ ':' :: '{' :: (a ++ '}' :: '}' :: t)) := rfl
  have h2 : matchKind (k ++ ':' :: '{' :: (a ++ '}' :: '}' :: t)) =
      some (':' :: '{' :: (a ++ '}' :: '}' :: t)) := matchKind_kind hk
  have h3 : stripLit [':', '{'] (':' :: '{' :: (a ++ '}' :: '}' :: t)) =
      some (a ++ '}' :: '}' :: t) := rfl
  have h4 : matchAlt1Tail (a ++ '}' :: '}' :: t) = some t := by
    unfold matchAlt1Tail
    rw [countWhile_append_stop ha (by decide), List.drop_left]
    rfl
  simp only [matchAt, h1, h2, h3, h4]

/-- The two-part token text with kind `k` and category `a`. -/
def mkTok2 (k a : List Char) : List Char :=
  '{' :: (k ++ ':' :: '{' :: (a ++ ['}', '}']))

theorem mkTok2_append (k a t : List Char) :
    mkTok2 k a ++ t = '{' :: (k ++ ':' :: '{' :: (a ++ '}' :: '}' :: t)) := by
  simp [mkTok2]

theorem findMatch_mkTok2 {k a : List Char} (hk : IsKind k)
    (ha : ∀ c ∈ a, isClassChar c = true) (t : List Char) :
    findMatch (mkTok2 k a ++ t) = some ([], mkTok2 k a, t) := by
  apply findMatch_head (by simp [mkTok2])
  rw [mkTok2_append]
  exact matchAt_alt1 hk ha

theorem kind_no_brace_colon {k : List Char} (hk : IsKind k) :
    (∀ c ∈ k, !(c == '{' || c == '}') = true) ∧ (∀ c ∈ k, c ≠ ':') := by
  rcases hk with hk | hk | hk <;> subst hk <;> exact ⟨by decide, by decide⟩

theorem stripBraces_class {a : List Char} (ha : ∀ c ∈ a, isClassChar c = true) :
    stripBraces a = a := by
  unfold stripBraces
  rw [List.filter_eq_self]
  intro c hc
  have h1 : c ≠ '{' := isClassChar_ne (ha c hc) (by decide)
  have h2 : c ≠ '}' := isClassChar_ne (ha c hc) (by decide)
  simp [h1, h2]

theorem stripBraces_append (x y : List Char) :
    stripBraces (x ++ y) = stripBraces x ++ stripBraces y := by
  unfold stripBraces
  exact List.filter_append _ _

theorem stripBraces_mkTok2 {k a : List Char} (hk : IsKind k)
    (ha : ∀ c ∈ a, isClassChar c = true) :
    stripBraces (mkTok2 k a) = k ++ ':' :: a := by
  have hkf : stripBraces k = k := by
    rcases hk with hk | hk | hk <;> subst hk <;> rfl
  have heq : mkTok2 k a = ['{'] ++ (k ++ ([':', '{'] ++ (a ++ ['}', '}']))) := by
    simp [mkTok2]
  have e1 : stripBraces ['{'] = [] := rfl
  have e2 : stripBraces [':', '{'] = [':'] := rfl
  have e3 : stripBraces ['}', '}'] = [] := rfl
  rw [heq]
  simp only [stripBraces_append, hkf, stripBraces_class ha, e1, e2, e3]
  simp

theorem tokenParts_mkTok2 {k a : List Char} (hk : IsKind k)
    (ha : ∀ c ∈ a, isClassChar c = true) :
    tokenParts (mkTok2 k a) = [k, a] := by
  unfold tokenParts
  rw [stripBraces_mkTok2 hk ha]
  rw [splitSep_append_sep (kind_no_brace_colon hk).2]
  rw [splitSep_no_sep (fun c hc => isClassChar_ne (ha c hc) (by decide))]

/-! ### Computing the fragment paths -/

/-- Generic evaluation of the four-part `path.join` call of the source when
all parts are ordinary relative segments: joining is plain interleaving with
slashes.  `B` is the mapped kind, whose own slash-split is `Bsegs`. -/
theorem pathJoin_four {B c z : List Char} {Bsegs : List (List Char)}
    (hB : ∀ R : List Char, splitSep '/' (B ++ '/' :: R) = Bsegs ++ splitSep '/' R)
    (hBsegs : ∀ seg ∈ Bsegs, seg ≠ [] ∧ seg ≠ ['.'] ∧ seg ≠ ['.', '.'])
    (hBne : B ≠ [])
    (hcNS : ∀ ch ∈ c, ch ≠ '/') (hcOk : c ≠ [] ∧ c ≠ ['.'] ∧ c ≠ ['.', '.'])
    (hzNS : ∀ ch ∈ z, ch ≠ '/') (hzOk : z ≠ [] ∧ z ≠ ['.'] ∧ z ≠ ['.', '.'])
    (hzLast : z.getLast? ≠ some '/') :
    pathJoin ["components".toList, B, c, z] =
      "components".toList ++ '/' :: (B ++ '/' :: (c ++ '/' :: z)) := by
  have hjoin : joinSep '/' ["components".toList, B, c, z] =
      "components".toList ++ '/' :: (B ++ '/' :: (c ++ '/' :: z)) := rfl
  have hsegs : splitSep '/' (joinSep '/' ["components".toList, B, c, z]) =
      "components".toList :: (Bsegs ++ (c :: [z])) := by
    rw [hjoin]
    rw [splitSep_append_sep (by decide)]
    rw [hB]
    rw [splitSep_append_sep hcNS]
    rw [splitSep_no_sep hzNS]
  rw [pathJoin_eq (by simp) ?hall ?hhead ?hlast ?hsegs, hjoin]
  case hall =>
    intro p hp
    simp only [List.mem_cons, List.not_mem_nil, or_false] at hp
    rcases hp with rfl | rfl | rfl | rfl
    · decide
    · exact hBne
    · exact hcOk.1
    · exact hzOk.1
  case hhead =>
    rw [hjoin]
    rw [show ("components".toList ++ '/' :: (B ++ '/' :: (c ++ '/' :: z))).head? =
      some 'c' from rfl]
    decide
  case hlast =>
    rw [hjoin]
    rw [show "components".toList ++ '/' :: (B ++ '/' :: (c ++ '/' :: z)) =
      ("components".toList ++ '/' :: (B ++ '/' :: (c ++ ['/']))) ++ z by simp]
    rw [List.getLast?_append_of_ne_nil _ hzOk.1]
    exact hzLast
  case hsegs =>
    rw [hsegs]
    intro seg hseg
    rcases List.mem_cons.mp hseg with h | h
    · subst h; refine ⟨by decide, by decide, by decide⟩
    rcases List.mem_append.mp h with h | h
    · exact hBsegs seg h
    rcases List.mem_cons.mp h with h | h
    · subst h; exact hcOk
    · rw [List.mem_singleton] at h; subst h; exact hzOk

theorem splitSep_app_kind (R : List Char) :
    splitSep '/' ("app".toList ++ '/' :: R) = ["app".toList] ++ splitSep '/' R := by
  rw [splitSep_append_sep (by decide)]
  rfl

theorem splitSep_deferred_kind (R : List Char) :
    splitSep '/' ("app/_deferred".toList ++ '/' :: R) =
      ["app".toList, "_deferred".toList] ++ splitSep '/' R := by
  rw [show "app/_deferred".toList ++ '/' :: R =
    "app".toList ++ '/' :: ("_deferred".toList ++ '/' :: R) by simp]
  rw [splitSep_append_sep (by decide), splitSep_append_sep (by decide)]
  rfl

theorem splitSep_svg_kind (R : List Char) :
    splitSep '/' ("app/_svg".toList ++ '/' :: R) =
      ["app".toList, "_svg".toList] ++ splitSep '/' R := by
  rw [show "app/_svg".toList ++ '/' :: R =
    "app".toList ++ '/' :: ("_svg".toList ++ '/' :: R) by simp]
  rw [splitSep_append_sep (by decide), splitSep_append_sep (by decide)]
  rfl

theorem fileExt_facts {file ext : List Char} (hf : ∀ ch ∈ file, ch ≠ '/')
    (hne : ext ≠ []) (hNS : ∀ ch ∈ ext, ch ≠ '/') (hlen : 2 < ext.length)
    (hlast : ext.getLast? ≠ some '/') :
    (∀ ch ∈ file ++ ext, ch ≠ '/') ∧
      (file ++ ext ≠ [] ∧ file ++ ext ≠ ['.'] ∧ file ++ ext ≠ ['.', '.']) ∧
      (file ++ ext).getLast? ≠ some '/' := by
  refine ⟨?_, ⟨?_, ?_, ?_⟩, ?_⟩
  · intro ch hch
    rcases List.mem_append.mp hch with h | h
    · exact hf ch h
    · exact hNS ch h
  · simp [hne]
  · intro h
    have := congrArg List.length h
    simp at this
    omega
  · intro h
    have := congrArg List.length h
    simp at this
    omega
  · rw [List.getLast?_append_of_ne_nil _ hne]
    exact hlast

theorem tokenFilepath_two {k c : List Char} (hk : IsKind k)
    (hcNS : ∀ ch ∈ c, ch ≠ '/') (hcOk : c ≠ [] ∧ c ≠ ['.'] ∧ c ≠ ['.', '.']) :
    tokenFilepath [k, c] =
      "components".toList ++ '/' ::
        ((if k = "app".toList then k else "app/_".toList ++ k) ++ '/' ::
          (c ++ '/' :: (c ++ (if k = "svg".toList then ".svg".toList else ".html".toList)))) := by
  rcases hk with hk | hk | hk <;> subst hk
  · rw [if_pos rfl, if_neg (by decide)]
    obtain ⟨hzNS, hzOk, hzLast⟩ := fileExt_facts hcNS
      (show ".html".toList ≠ [] by decide) (by decide) (by decide) (by decide)
    show pathJoin ["components".toList, "app".toList, c, c ++ ".html".toList] =
      "components".toList ++ '/' ::
        ("app".toList ++ '/' :: (c ++ '/' :: (c ++ ".html".toList)))
    exact pathJoin_four splitSep_app_kind (by decide) (by decide) hcNS hcOk hzNS hzOk hzLast
  · rw [if_neg (by decide), if_neg (by decide),
      show "app/_".toList ++ "deferred".toList = "app/_deferred".toList from rfl]
    obtain ⟨hzNS, hzOk, hzLast⟩ := fileExt_facts hcNS
      (show ".html".toList ≠ [] by decide) (by decide) (by decide) (by decide)
    show pathJoin ["components".toList, "app/_deferred".toList, c, c ++ ".html".toList] =
      "components".toList ++ '/' ::
        ("app/_deferred".toList ++ '/' :: (c ++ '/' :: (c ++ ".html".toList)))
    exact pathJoin_four splitSep_deferred_kind (by decide) (by decide) hcNS hcOk hzNS hzOk
      hzLast
  · rw [if_neg (by decide), if_pos rfl,
      show "app/_".toList ++ "svg".toList = "app/_svg".toList from rfl]
    obtain ⟨hzNS, hzOk, hzLast⟩ := fileExt_facts hcNS
      (show ".svg".toList ≠ [] by decide) (by decide) (by decide) (by decide)
    show pathJoin ["components".toList, "app/_svg".toList, c, c ++ ".svg".toList] =
      "components".toList ++ '/' ::
        ("app/_svg".toList ++ '/' :: (c ++ '/' :: (c ++ ".svg".toList)))
    exact pathJoin_four splitSep_svg_kind (by decide) (by decide) hcNS hcOk hzNS hzOk hzLast

theorem tokenFilepath_three {k c n : List Char} (hk : IsKind k)
    (hcNS : ∀ ch ∈ c, ch ≠ '/') (hcOk : c ≠ [] ∧ c ≠ ['.'] ∧ c ≠ ['.', '.'])
    (hnNS : ∀ ch ∈ n, ch ≠ '/') :
    tokenFilepath [k, c, n] =
      "components".toList ++ '/' ::
        ((if k = "app".toList then k else "app/_".toList ++ k) ++ '/' ::
          (c ++ '/' :: (n ++ (if k = "svg".toList then ".svg".toList else ".html".toList)))) := by
  rcases hk with hk | hk | hk <;> subst hk
  · rw [if_pos rfl, if_neg (by decide)]
    obtain ⟨hzNS, hzOk, hzLast⟩ := fileExt_facts hnNS
      (show ".html".toList ≠ [] by decide) (by decide) (by decide) (by decide)
    show pathJoin ["components".toList, "app".toList, c, n ++ ".html".toList] =
      "components".toList ++ '/' ::
        ("app".toList ++ '/' :: (c ++ '/' :: (n ++ ".html".toList)))
    exact pathJoin_four splitSep_app_kind (by decide) (by decide) hcNS hcOk hzNS hzOk hzLast
  · rw [if_neg (by decide), if_neg (by decide),
      show "app/_".toList ++ "deferred".toList = "app/_deferred".toList from rfl]
    obtain ⟨hzNS, hzOk, hzLast⟩ := fileExt_facts hnNS
      (show ".html".toList ≠ [] by decide) (by decide) (by decide) (by decide)
    show pathJoin ["components".toList, "app/_deferred".toList, c, n ++ ".html".toList] =
      "components".toList ++ '/' ::
        ("app/_deferred".toList ++ '/' :: (c ++ '/' :: (n ++ ".html".toList)))
    exact pathJoin_four splitSep_deferred_kind (by decide) (by decide) hcNS hcOk hzNS hzOk
      hzLast
  · rw [if_neg (by decide), if_pos rfl,
      show "app/_".toList ++ "svg".toList = "app/_svg".toList from rfl]
    obtain ⟨hzNS, hzOk, hzLast⟩ := fileExt_facts hnNS
      (show ".svg".toList ≠ [] by decide) (by decide) (by decide) (by decide)
    show pathJoin ["components".toList, "app/_svg".toList, c, n ++ ".svg".toList] =
      "components".toList ++ '/' ::
        ("app/_svg".toList ++ '/' :: (c ++ '/' :: (n ++ ".svg".toList)))
    exact pathJoin_four splitSep_svg_kind (by decide) (by decide) hcNS hcOk hzNS hzOk hzLast

/-! ### Matching the second alternative

The three-part form accepted by the regex is `\x7bkind:\x7bcat:\x7bname\x7d\x7d\x7d`.  The
lemmas below trace the greedy backtracking of the two `(.+)` groups. -/

theorem stripLit_none_of_lt {p l : List Char} (h : l.length < p.length) :
    stripLit p l = none := by
  induction p generalizing l with
  | nil => simp at h
  | cons a ps ih =>
    cases l with
    | nil => rfl
    | cons c cs =>
      simp only [List.length_cons] at h
      simp only [stripLit]
      split
      · exact ih (by omega)
      · rfl

theorem stripLit_head_ne {p : Char} {ps l : List Char} (h : l.head? ≠ some p) :
    stripLit (p :: ps) l = none := by
  cases l with
  | nil => rfl
  | cons c cs =>
    have hc : c ≠ p := by simpa using h
    simp [stripLit, hc]

theorem head?_drop (l : List Char) (n : Nat) : (l.drop n).head? = l[n]? :=
  List.head?_drop l n

theorem g2From_skip (r : List Char) (k m : Nat) (hmk : m ≤ k)
    (hfail : ∀ j, m < j → j ≤ k → g2Step r j = none) :
    g2From k r = g2From m r := by
  induction k with
  | zero =>
    have : m = 0 := by omega
    rw [this]
  | succ k ih =>
    rcases Nat.eq_or_lt_of_le hmk with heq | hlt
    · rw [heq]
    · have hstep : g2Step r (k+1) = none := hfail (k+1) (by omega) (le_refl _)
      show (match g2Step r (k+1) with
        | some rest => some rest
        | none => g2From k r) = g2From m r
      rw [hstep]
      exact ih (by omega) (fun j h1 h2 => hfail j h1 (by omega))

theorem g1From_skip (r : List Char) (k m : Nat) (hmk : m ≤ k)
    (hfail : ∀ j, m < j → j ≤ k → g1Step r j = none) :
    g1From k r = g1From m r := by
  induction k with
  | zero =>
    have : m = 0 := by omega
    rw [this]
  | succ k ih =>
    rcases Nat.eq_or_lt_of_le hmk with heq | hlt
    · rw [heq]
    · have hstep : g1Step r (k+1) = none := hfail (k+1) (by omega) (le_refl _)
      show (match g1Step r (k+1) with
        | some rest => some rest
        | none => g1From k r) = g1From m r
      rw [hstep]
      exact ih (by omega) (fun j h1 h2 => hfail j h1 (by omega))

theorem matchG2_tail {n : List Char} (hne : n ≠ []) (hn : ∀ ch ∈ n, isDot ch = true) :
    matchG2 (n ++ ['}', '}', '}']) = some [] := by
  have hrun : countWhile isDot (n ++ ['}', '}', '}']) = n.length + 3 := by
    rw [countWhile_all]
    · simp
    · intro ch hch
      rcases List.mem_append.mp hch with h | h
      · exact hn ch h
      · have : ch = '}' := by simpa using h
        subst this
        decide
  unfold matchG2
  rw [hrun]
  rw [g2From_skip _ (n.length + 3) n.length (by omega) ?hfail]
  case hfail =>
    intro j h1 h2
    unfold g2Step
    apply stripLit_none_of_lt
    simp only [List.length_drop, List.length_append, List.length_cons, List.length_nil]
    omega
  cases hlen : n.length with
  | zero => exact absurd (List.eq_nil_of_length_eq_zero hlen) hne
  | succ m =>
    show (match g2Step (n ++ ['}', '}', '}']) (m+1) with
      | some rest => some rest
      | none => g2From m (n ++ ['}', '}', '}'])) = some []
    have hstep : g2Step (n ++ ['}', '}', '}']) (m+1) = some [] := by
      unfold g2Step
      rw [← hlen, List.drop_left]
      rfl
    rw [hstep]

/-- The three-part token text with kind `k`, category `c` and name `g`. -/
def mkTok3 (k c g : List Char) : List Char :=
  '{' :: (k ++ ':' :: '{' :: (c ++ ':' :: '{' :: (g ++ ['}', '}', '}'])))

theorem countWhile_le_of_false {p : Char → Bool} {l : List Char} {j : Nat} {x : Char}
    (hj : l[j]? = some x) (hx : p x = false) : countWhile p l ≤ j := by
  induction l generalizing j with
  | nil => simp at hj
  | cons c cs ih =>
    cases j with
    | zero =>
      simp only [List.getElem?_cons_zero, Option.some.injEq] at hj
      subst hj
      simp [countWhile, hx]
    | succ j =>
      simp only [List.getElem?_cons_succ] at hj
      unfold countWhile
      split
      · exact Nat.succ_le_succ (ih hj)
      · omega

theorem countWhile_getElem {p : Char → Bool} {l : List Char}
    (h : countWhile p l < l.length) :
    ∃ x, l[countWhile p l]? = some x ∧ p x = false := by
  induction l with
  | nil => simp at h
  | cons c cs ih =>
    by_cases hc : p c = true
    · have hcw : countWhile p (c :: cs) = countWhile p cs + 1 := by
        simp [countWhile, hc]
      rw [hcw] at h ⊢
      simp only [List.getElem?_cons_succ]
      exact ih (by simpa using h)
    · have hcb : p c = false := by simpa using hc
      have hcw : countWhile p (c :: cs) = 0 := by
        simp [countWhile, hcb]
      rw [hcw]
      exact ⟨c, by simp, hcb⟩

theorem matchAt_alt2 {k c g : List Char} (hk : IsKind k)
    (hcne : c ≠ []) (hc : ∀ ch ∈ c, isDot ch = true ∧ ch ≠ ':' ∧ ch ≠ '}')
    (hgne : g ≠ []) (hg : ∀ ch ∈ g, isDot ch = true ∧ ch ≠ ':') :
    matchAt (mkTok3 k c g) = some [] := by
  set tail := c ++ ':' :: '{' :: (g ++ ['}', '}', '}']) with htail
  have h1 : stripLit ['{'] (mkTok3 k c g) = some (k ++ ':' :: '{' :: tail) := rfl
  have h2 : matchKind (k ++ ':' :: '{' :: tail) = some (':' :: '{' :: tail) :=
    matchKind_kind hk
  have h3 : stripLit [':', '{'] (':' :: '{' :: tail) = some tail := rfl
  have hclen : c.length < tail.length := by
    rw [htail]
    simp
  have hcolon : tail[c.length]? = some ':' := by
    rw [htail, List.getElem?_append_right (le_refl c.length)]
    simp
  -- the first alternative fails: the class run stops before two closing braces
  have halt1 : matchAlt1Tail tail = none := by
    unfold matchAlt1Tail
    have hrunle : countWhile isClassChar tail ≤ c.length :=
      countWhile_le_of_false hcolon (by decide)
    have hrunlt : countWhile isClassChar tail < tail.length := by omega
    obtain ⟨x, hx, hxfalse⟩ := countWhile_getElem hrunlt
    have hxne : x ≠ '}' := by
      rcases Nat.eq_or_lt_of_le hrunle with heq | hlt
      · rw [heq, hcolon] at hx
        cases hx
        decide
      · rw [htail, List.getElem?_append_left hlt] at hx
        exact (hc x (List.getElem?_mem hx)).2.2
    apply stripLit_head_ne
    rw [head?_drop, hx]
    simp [hxne]
  -- the second alternative succeeds with the greedy groups `c` and `g`
  have halt2 : matchAlt2Tail tail = some [] := by
    unfold matchAlt2Tail
    have hrun : countWhile isDot tail = tail.length := by
      apply countWhile_all
      intro ch hch
      rw [htail] at hch
      rcases List.mem_append.mp hch with h | h
      · exact (hc ch h).1
      · rcases List.mem_cons.mp h with h | h
        · subst h; decide
        rcases List.mem_cons.mp h with h | h
        · subst h; decide
        rcases List.mem_append.mp h with h | h
        · exact (hg ch h).1
        · have : ch = '}' := by simpa using h
          subst this
          decide
    rw [hrun]
    rw [g1From_skip _ tail.length c.length (by omega) ?hfail]
    case hfail =>
      intro j hj1 hj2
      unfold g1Step
      rw [stripLit_head_ne ?hne]
      case hne =>
        rw [head?_drop]
        rw [htail, List.getElem?_append_right (by omega)]
        rcases Nat.lt_or_ge j (c.length + 1) with h | h
        · omega
        · have : j - c.length = (j - c.length - 1) + 1 := by omega
          rw [this]
          simp only [List.getElem?_cons_succ]
          cases hi : j - c.length - 1 with
          | zero =>
            simp
          | succ i =>
            simp only [List.getElem?_cons_succ]
            cases hv : (g ++ ['}', '}', '}'])[i]? with
            | none => simp
            | some x =>
              have hxmem := List.getElem?_mem hv
              have hxne : x ≠ ':' := by
                rcases List.mem_append.mp hxmem with h | h
                · exact (hg x h).2
                · have : x = '}' := by simpa using h
                  subst this
                  decide
              simp [hxne]
    cases hlen : c.length with
    | zero => exact absurd (List.eq_nil_of_length_eq_zero hlen) hcne
    | succ m =>
      show (match g1Step tail (m+1) with
        | some rest => some rest
        | none => g1From m tail) = some []
      have hstep : g1Step tail (m+1) = some [] := by
        unfold g1Step
        rw [htail, ← hlen, List.drop_left]
        show matchG2 (g ++ ['}', '}', '}']) = some []
        exact matchG2_tail hgne (fun ch hch => (hg ch hch).1)
      rw [hstep]
  simp only [matchAt, h1, h2, h3, halt1, halt2]

theorem findMatch_mkTok3 {k c g : List Char} (hk : IsKind k)
    (hcne : c ≠ []) (hc : ∀ ch ∈ c, isDot ch = true ∧ ch ≠ ':' ∧ ch ≠ '}')
    (hgne : g ≠ []) (hg : ∀ ch ∈ g, isDot ch = true ∧ ch ≠ ':') :
    findMatch (mkTok3 k c g) = some ([], mkTok3 k c g, []) := by
  have h0 : matchAt (mkTok3 k c g ++ []) = some [] := by
    rw [List.append_nil]
    exact matchAt_alt2 hk hcne hc hgne hg
  have h1 := findMatch_head (by simp [mkTok3]) h0
  simpa using h1

theorem stripBraces_mkTok3 {k c g : List Char} (hk : IsKind k)
    (hc : ∀ ch ∈ c, ch ≠ '{' ∧ ch ≠ '}') (hg : ∀ ch ∈ g, ch ≠ '{' ∧ ch ≠ '}') :
    stripBraces (mkTok3 k c g) = k ++ ':' :: (c ++ ':' :: g) := by
  have hkf : stripBraces k = k := by
    rcases hk with hk | hk | hk <;> subst hk <;> rfl
  have hfilter : ∀ (x : List Char), (∀ ch ∈ x, ch ≠ '{' ∧ ch ≠ '}') →
      stripBraces x = x := by
    intro x hx
    unfold stripBraces
    rw [List.filter_eq_self]
    intro ch hch
    simp [(hx ch hch).1, (hx ch hch).2]
  have heq : mkTok3 k c g =
      ['{'] ++ (k ++ ([':', '{'] ++ (c ++ ([':', '{'] ++ (g ++ ['}', '}', '}']))))) := by
    simp [mkTok3]
  have e1 : stripBraces ['{'] = [] := rfl
  have e2 : stripBraces [':', '{'] = [':'] := rfl
  have e3 : stripBraces ['}', '}', '}'] = [] := rfl
  rw [heq]
  simp only [stripBraces_append, hkf, hfilter c hc, hfilter g hg, e1, e2, e3]
  simp

theorem tokenParts_mkTok3 {k c g : List Char} (hk : IsKind k)
    (hc : ∀ ch ∈ c, ch ≠ '{' ∧ ch ≠ '}' ∧ ch ≠ ':')
    (hg : ∀ ch ∈ g, ch ≠ '{' ∧ ch ≠ '}' ∧ ch ≠ ':') :
    tokenParts (mkTok3 k c g) = [k, c, g] := by
  unfold tokenParts
  rw [stripBraces_mkTok3 hk (fun ch hch => ⟨(hc ch hch).1, (hc ch hch).2.1⟩)
    (fun ch hch => ⟨(hg ch hch).1, (hg ch hch).2.1⟩)]
  rw [splitSep_append_sep (kind_no_brace_colon hk).2]
  rw [splitSep_append_sep (fun ch hch => (hc ch hch).2.2)]
  rw [splitSep_no_sep (fun ch hch => (hg ch hch).2.2)]

/-! ### Evaluating the resolution on token-shaped inputs -/

theorem handleToken_missing {fs : FS}
    {recur : List Char → Option (List Char × List (List Char))} {m : List Char}
    (h : lookupFS fs (tokenPath m) = none) :
    handleToken fs recur m = some (m, []) := by
  unfold handleToken
  rw [h]

theorem handleToken_unreadable {fs : FS}
    {recur : List Char → Option (List Char × List (List Char))} {m : List Char}
    (h : lookupFS fs (tokenPath m) = some none) :
    handleToken fs recur m = some (m, [tokenPath m]) := by
  unfold handleToken
  rw [h]

theorem handleToken_readable {fs : FS}
    {recur : List Char → Option (List Char × List (List Char))} {m c : List Char}
    (h : lookupFS fs (tokenPath m) = some (some c)) :
    handleToken fs recur m = recur (tokenWrap m c) := by
  unfold handleToken
  rw [h]

theorem tokenWrap_not_svg {m : List Char} (h : tokenIsSvg m = false) (c : List Char) :
    tokenWrap m c = c := by
  unfold tokenWrap tokenStart tokenEnd
  rw [h]
  simp

theorem tokenWrap_svg {m : List Char} (h : tokenIsSvg m = true) (c : List Char) :
    tokenWrap m c = "<!-- START ".toList ++ tokenPath m ++ " -->\n".toList ++ c ++
      ("<!-- END ".toList ++ tokenPath m ++ " -->\n".toList) := by
  unfold tokenWrap tokenStart tokenEnd
  rw [h]
  simp

theorem tokenIsSvg_mkTok2 {k a : List Char} (hk : IsKind k)
    (ha : ∀ c ∈ a, isClassChar c = true) :
    tokenIsSvg (mkTok2 k a) = decide (k = "svg".toList) := by
  unfold tokenIsSvg
  rw [tokenParts_mkTok2 hk ha]
  rfl

theorem tokenIsSvg_mkTok3 {k c g : List Char} (hk : IsKind k)
    (hc : ∀ ch ∈ c, ch ≠ '{' ∧ ch ≠ '}' ∧ ch ≠ ':')
    (hg : ∀ ch ∈ g, ch ≠ '{' ∧ ch ≠ '}' ∧ ch ≠ ':') :
    tokenIsSvg (mkTok3 k c g) = decide (k = "svg".toList) := by
  unfold tokenIsSvg
  rw [tokenParts_mkTok3 hk hc hg]
  rfl

theorem tokenize_single {m : List Char} (hfm : findMatch m = some ([], m, [])) :
    tokenize m = [Seg.lit [], Seg.tok m, Seg.lit []] := by
  rw [tokenize_cons hfm]
  rfl

theorem processSegs_single {fs : FS}
    {recur : List Char → Option (List Char × List (List Char))} {m r : List Char}
    {e : List (List Char)} (hh : handleToken fs recur m = some (r, e)) :
    processSegs fs recur [Seg.lit [], Seg.tok m, Seg.lit []] = some (r, e) := by
  simp [processSegs, hh]

theorem resolve_single {fs : FS} {n : Nat} {m r : List Char} {e : List (List Char)}
    (hfm : findMatch m = some ([], m, []))
    (hh : handleToken fs (replacePlaceholder fs n) m = some (r, e)) :
    replacePlaceholder fs (n+1) m = some (r, e) := by
  show processSegs fs (replacePlaceholder fs n) (tokenize m) = some (r, e)
  rw [tokenize_single hfm]
  exact processSegs_single hh

theorem resolve_two {fs : FS} {n : Nat} {m1 m2 r1 r2 : List Char}
    {e1 e2 : List (List Char)}
    (hfm1 : findMatch (m1 ++ m2) = some ([], m1, m2))
    (hfm2 : findMatch m2 = some ([], m2, []))
    (hh1 : handleToken fs (replacePlaceholder fs n) m1 = some (r1, e1))
    (hh2 : handleToken fs (replacePlaceholder fs n) m2 = some (r2, e2)) :
    replacePlaceholder fs (n+1) (m1 ++ m2) = some (r1 ++ r2, e1 ++ e2) := by
  show processSegs fs (replacePlaceholder fs n) (tokenize (m1 ++ m2)) = _
  rw [tokenize_cons hfm1, tokenize_single hfm2]
  simp [processSegs, hh1, hh2]

theorem resolve_of_findMatch_none (fs : FS) (n : Nat) {s : List Char}
    (h : findMatch s = none) : replacePlaceholder fs (n+1) s = some (s, []) := by
  show processSegs fs (replacePlaceholder fs n) (tokenize s) = some (s, [])
  rw [tokenize_of_no_match h]
  simp [processSegs]

theorem findMatch_none_of_matchAt {s : List Char}
    (h : ∀ i, matchAt (s.drop i) = none) : findMatch s = none := by
  induction s with
  | nil => rfl
  | cons c cs ih =>
    have h0 : matchAt (c :: cs) = none := by simpa using h 0
    have hrest : findMatch cs = none := ih (fun i => by simpa using h (i+1))
    unfold findMatch
    rw [h0, hrest]

/-! ### The claims -/

/-- C1: for every placeholder token with kind `k`, category `c` and optional
name `n` that resolve processes, the fragment path is built by joining the
base fragments directory `components`, the mapped kind (`k` itself when
`k = app`, otherwise `app/_` ++ `k`), the category `c`, and the name (or the
category when the name is absent) plus the extension `.svg` for the svg kind
and `.html` otherwise; in particular a deferred token is looked up at
`components/app/_deferred/<category>/<name>.html`. -/
theorem c1_fragment_path (k c n : List Char) (hk : IsKind k)
    (hc : PlainSeg c) (hn : PlainSeg n) :
    tokenFilepath [k, c, n] =
      joinSep '/' ["components".toList,
        if k = "app".toList then k else "app/_".toList ++ k, c,
        n ++ (if k = "svg".toList then ".svg".toList else ".html".toList)] ∧
    tokenFilepath [k, c] =
      joinSep '/' ["components".toList,
        if k = "app".toList then k else "app/_".toList ++ k, c,
        c ++ (if k = "svg".toList then ".svg".toList else ".html".toList)] ∧
    tokenFilepath ["deferred".toList, c, n] =
      "components/app/_deferred/".toList ++ c ++ '/' :: (n ++ ".html".toList) := by
  obtain ⟨hcne, hcNS, hcd1, hcd2⟩ := hc
  obtain ⟨hnne, hnNS, hnd1, hnd2⟩ := hn
  refine ⟨?_, ?_, ?_⟩
  · rw [tokenFilepath_three hk hcNS ⟨hcne, hcd1, hcd2⟩ hnNS]
    rfl
  · rw [tokenFilepath_two hk hcNS ⟨hcne, hcd1, hcd2⟩]
    rfl
  · rw [tokenFilepath_three (Or.inr (Or.inl rfl)) hcNS ⟨hcne, hcd1, hcd2⟩ hnNS]
    rw [if_neg (by decide), if_neg (by decide)]
    simp

theorem c1_fragment_path_witness :
    tokenFilepath ["deferred".toList, "nav".toList, "menu".toList] =
      "components/app/_deferred/nav/menu.html".toList :=
  ((c1_fragment_path "deferred".toList "nav".toList "menu".toList
    (Or.inr (Or.inl rfl)) ⟨by decide, by decide, by decide, by decide⟩
    ⟨by decide, by decide, by decide, by decide⟩).2.2).trans (by decide)

/-- C2: a placeholder token whose computed fragment path does not exist on
the filesystem is left verbatim in the output, and no error is reported; in
particular when every token of the input is missing, resolve returns the
input unchanged with an empty error log. -/
theorem c2_missing_fragment_verbatim (fs : FS) (n : Nat) (s : List Char)
    (h : ∀ m, Seg.tok m ∈ tokenize s → lookupFS fs (tokenPath m) = none) :
    replacePlaceholder fs (n+1) s = some (s, []) := by
  show processSegs fs (replacePlaceholder fs n) (tokenize s) = _
  rw [processSegs_of_verbatim (fun m hm => handleToken_missing (h m hm))]
  rw [tokenize_concat]

theorem c2_missing_fragment_verbatim_witness :
    replacePlaceholder [] 1 "\x7bapp:\x7bmissing\x7d\x7d".toList =
      some ("\x7bapp:\x7bmissing\x7d\x7d".toList, []) := by
  apply c2_missing_fragment_verbatim [] 0
  intro m hm
  rw [show tokenize "\x7bapp:\x7bmissing\x7d\x7d".toList =
    [Seg.lit [], Seg.tok "\x7bapp:\x7bmissing\x7d\x7d".toList, Seg.lit []] from by decide]
    at hm
  simp only [List.mem_cons, List.not_mem_nil, or_false] at hm
  rcases hm with hm | hm | hm
  · exact Seg.noConfusion hm
  · injection hm with hm'
    subst hm'
    rfl
  · exact Seg.noConfusion hm

/-- C4: resolve is the identity, with no error reports, on every input in
which no position starts a match of the placeholder pattern. -/
theorem c4_identity_no_tokens (fs : FS) (n : Nat) (s : List Char)
    (h : ∀ i, matchAt (s.drop i) = none) :
    replacePlaceholder fs (n+1) s = some (s, []) :=
  resolve_of_findMatch_none fs n (findMatch_none_of_matchAt h)

theorem c4_identity_no_tokens_witness :
    replacePlaceholder [] 1 "hello".toList = some ("hello".toList, []) := by
  apply c4_identity_no_tokens [] 0
  intro i
  match i with
  | 0 => decide
  | 1 => decide
  | 2 => decide
  | 3 => decide
  | 4 => decide
  | (j+5) =>
    rw [List.drop_eq_nil_of_le
      (by rw [show ("hello".toList).length = 5 from rfl]; omega)]
    rfl

/-- The fragment tree of the idempotence counterexample: fragment `a` holds
the text `\x7bapp`, fragment `c` holds `:\x7bb\x7d\x7d`, fragment `b` holds `Z`. -/
def fsIdem : FS := [
  ("components/app/a/a.html".toList, some "\x7bapp".toList),
  ("components/app/c/c.html".toList, some ":\x7bb\x7d\x7d".toList),
  ("components/app/b/b.html".toList, some "Z".toList)]

/-- C9: resolve is not idempotent in general: over the fragment tree
`fsIdem`, resolving `\x7bapp:\x7ba\x7d\x7d\x7bapp:\x7bc\x7d\x7d` yields `\x7bapp:\x7bb\x7d\x7d` (the two fragment
texts concatenate into fresh placeholder syntax), and resolving the result
again yields `Z`, a different string. -/
theorem c9_not_idempotent :
    replacePlaceholder fsIdem 5 "\x7bapp:\x7ba\x7d\x7d\x7bapp:\x7bc\x7d\x7d".toList =
      some ("\x7bapp:\x7bb\x7d\x7d".toList, []) ∧
    replacePlaceholder fsIdem 5 "\x7bapp:\x7bb\x7d\x7d".toList = some ("Z".toList, []) ∧
    "\x7bapp:\x7bb\x7d\x7d".toList ≠ "Z".toList :=
  ⟨by decide, by decide, by decide⟩

/-- C10: the two-part form accepts an empty category: `\x7bapp:\x7b\x7d\x7d` is
recognised as a token, its parts are the kind `app` with empty category (and
hence empty name), the looked-up path is the join of `components`, `app`,
the empty category and the bare extension `.html` (that is
`components/app/.html`), and when no file exists there the token is returned
verbatim with no error. -/
theorem c10_empty_category :
    tokenize "\x7bapp:\x7b\x7d\x7d".toList =
      [Seg.lit [], Seg.tok "\x7bapp:\x7b\x7d\x7d".toList, Seg.lit []] ∧
    tokenParts "\x7bapp:\x7b\x7d\x7d".toList = ["app".toList, []] ∧
    tokenPath "\x7bapp:\x7b\x7d\x7d".toList =
      pathJoin ["components".toList, "app".toList, [], [] ++ ".html".toList] ∧
    tokenPath "\x7bapp:\x7b\x7d\x7d".toList = "components/app/.html".toList ∧
    ∀ (fs : FS) (n : Nat), lookupFS fs "components/app/.html".toList = none →
      replacePlaceholder fs (n+1) "\x7bapp:\x7b\x7d\x7d".toList =
        some ("\x7bapp:\x7b\x7d\x7d".toList, []) := by
  refine ⟨by decide, by decide, by decide, by decide, ?_⟩
  intro fs n h
  apply resolve_single (by decide)
  apply handleToken_missing
  rw [show tokenPath "\x7bapp:\x7b\x7d\x7d".toList = "components/app/.html".toList from by decide]
  exact h

theorem c10_empty_category_witness :
    replacePlaceholder [] 1 "\x7bapp:\x7b\x7d\x7d".toList =
      some ("\x7bapp:\x7b\x7d\x7d".toList, []) :=
  c10_empty_category.2.2.2.2 [] 0 rfl

/-- C3: substitution is recursive: when fragment `a` holds exactly the token
for fragment `b`, and fragment `b` holds placeholder-free text `y`, resolving
the token for `a` yields `y`. -/
theorem c3_recursive_substitution (fs : FS) (n : Nat) (a b y : List Char)
    (ha : ∀ ch ∈ a, isClassChar ch = true) (hb : ∀ ch ∈ b, isClassChar ch = true)
    (hA : lookupFS fs (tokenPath (mkTok2 "app".toList a)) =
      some (some (mkTok2 "app".toList b)))
    (hB : lookupFS fs (tokenPath (mkTok2 "app".toList b)) = some (some y))
    (hy : findMatch y = none) :
    replacePlaceholder fs (n+3) (mkTok2 "app".toList a) = some (y, []) := by
  have hk : IsKind "app".toList := Or.inl rfl
  have hfa : findMatch (mkTok2 "app".toList a) =
      some ([], mkTok2 "app".toList a, []) := by
    have := findMatch_mkTok2 hk ha []
    simpa using this
  have hfb : findMatch (mkTok2 "app".toList b) =
      some ([], mkTok2 "app".toList b, []) := by
    have := findMatch_mkTok2 hk hb []
    simpa using this
  have hsa : tokenIsSvg (mkTok2 "app".toList a) = false := by
    rw [tokenIsSvg_mkTok2 hk ha]
    decide
  have hsb : tokenIsSvg (mkTok2 "app".toList b) = false := by
    rw [tokenIsSvg_mkTok2 hk hb]
    decide
  apply resolve_single hfa
  rw [handleToken_readable hA, tokenWrap_not_svg hsa]
  apply resolve_single hfb
  rw [handleToken_readable hB, tokenWrap_not_svg hsb]
  exact resolve_of_findMatch_none fs n hy

/-- The fragment tree of the nesting witness: fragment `a` holds the token
for fragment `b`, fragment `b` holds `Y`. -/
def fsNest : FS := [
  ("components/app/a/a.html".toList, some (mkTok2 "app".toList "b".toList)),
  ("components/app/b/b.html".toList, some "Y".toList)]

theorem c3_recursive_substitution_witness :
    replacePlaceholder fsNest 3 (mkTok2 "app".toList "a".toList) =
      some ("Y".toList, []) :=
  c3_recursive_substitution fsNest 0 "a".toList "b".toList "Y".toList
    (by decide) (by decide) (by decide) (by decide) (by decide)

/-- The svg fragment tree of the C5 counterexample: one svg fragment `icon`
with content `C`. -/
def fsSvgW : FS := [("components/app/_svg/icon/icon.svg".toList, some "C".toList)]

/-- C5 counterexample: the svg banner comments each end with a newline, so
the substituted text is NOT exactly
`<!-- START <path> -->` ++ content ++ `<!-- END <path> -->`: resolving
`\x7bsvg:\x7bicon\x7d\x7d` over `fsSvgW` yields the banner text with the two
newlines, which differs from the newline-free wrapping the claim states. -/
theorem c5_svg_banner_counterexample :
    replacePlaceholder fsSvgW 2 "\x7bsvg:\x7bicon\x7d\x7d".toList =
      some (("<!-- START components/app/_svg/icon/icon.svg -->\nC" ++
        "<!-- END components/app/_svg/icon/icon.svg -->\n").toList, []) ∧
    replacePlaceholder fsSvgW 2 "\x7bsvg:\x7bicon\x7d\x7d".toList ≠
      some (("<!-- START components/app/_svg/icon/icon.svg -->C" ++
        "<!-- END components/app/_svg/icon/icon.svg -->").toList, []) :=
  ⟨by decide, by decide⟩

/-- C5 (amended): for an svg token whose fragment exists and is readable,
the substituted text is the fragment content wrapped in the comment banners
`<!-- START <path> -->` and `<!-- END <path> -->`, each followed by a
newline; for app and deferred tokens no banner is added (the fragment
content is substituted bare). -/
theorem c5_svg_banner_amended (fs : FS) (n : Nat) (a : List Char)
    (ha : ∀ ch ∈ a, isClassChar ch = true) :
    (∀ c, lookupFS fs (tokenPath (mkTok2 "svg".toList a)) = some (some c) →
      findMatch ("<!-- START ".toList ++ tokenPath (mkTok2 "svg".toList a) ++
        " -->\n".toList ++ c ++ ("<!-- END ".toList ++
        tokenPath (mkTok2 "svg".toList a) ++ " -->\n".toList)) = none →
      replacePlaceholder fs (n+2) (mkTok2 "svg".toList a) =
        some ("<!-- START ".toList ++ tokenPath (mkTok2 "svg".toList a) ++
          " -->\n".toList ++ c ++ ("<!-- END ".toList ++
          tokenPath (mkTok2 "svg".toList a) ++ " -->\n".toList), [])) ∧
    (∀ c, lookupFS fs (tokenPath (mkTok2 "app".toList a)) = some (some c) →
      findMatch c = none →
      replacePlaceholder fs (n+2) (mkTok2 "app".toList a) = some (c, [])) ∧
    (∀ c, lookupFS fs (tokenPath (mkTok2 "deferred".toList a)) = some (some c) →
      findMatch c = none →
      replacePlaceholder fs (n+2) (mkTok2 "deferred".toList a) = some (c, [])) := by
  refine ⟨?_, ?_, ?_⟩
  · intro c hl hw
    have hk : IsKind "svg".toList := Or.inr (Or.inr rfl)
    have hfm : findMatch (mkTok2 "svg".toList a) =
        some ([], mkTok2 "svg".toList a, []) := by
      have := findMatch_mkTok2 hk ha []
      simpa using this
    have hsvg : tokenIsSvg (mkTok2 "svg".toList a) = true := by
      rw [tokenIsSvg_mkTok2 hk ha]
      decide
    apply resolve_single hfm
    rw [handleToken_readable hl, tokenWrap_svg hsvg]
    exact resolve_of_findMatch_none fs n hw
  · intro c hl hw
    have hk : IsKind "app".toList := Or.inl rfl
    have hfm : findMatch (mkTok2 "app".toList a) =
        some ([], mkTok2 "app".toList a, []) := by
      have := findMatch_mkTok2 hk ha []
      simpa using this
    have hsvg : tokenIsSvg (mkTok2 "app".toList a) = false := by
      rw [tokenIsSvg_mkTok2 hk ha]
      decide
    apply resolve_single hfm
    rw [handleToken_readable hl, tokenWrap_not_svg hsvg]
    exact resolve_of_findMatch_none fs n hw
  · intro c hl hw
    have hk : IsKind "deferred".toList := Or.inr (Or.inl rfl)
    have hfm : findMatch (mkTok2 "deferred".toList a) =
        some ([], mkTok2 "deferred".toList a, []) := by
      have := findMatch_mkTok2 hk ha []
      simpa using this
    have hsvg : tokenIsSvg (mkTok2 "deferred".toList a) = false := by
      rw [tokenIsSvg_mkTok2 hk ha]
      decide
    apply resolve_single hfm
    rw [handleToken_readable hl, tokenWrap_not_svg hsvg]
    exact resolve_of_findMatch_none fs n hw

theorem c5_svg_banner_amended_witness :
    replacePlaceholder fsSvgW 2 (mkTok2 "svg".toList "icon".toList) =
      some (("<!-- START components/app/_svg/icon/icon.svg -->\nC" ++
        "<!-- END components/app/_svg/icon/icon.svg -->\n").toList, []) := by
  have h := (c5_svg_banner_amended fsSvgW 0 "icon".toList (by decide)).1
    "C".toList (by decide) (by decide)
  rw [show tokenPath (mkTok2 "svg".toList "icon".toList) =
    "components/app/_svg/icon/icon.svg".toList from by decide] at h
  exact h.trans (by decide)

/-- C7: a read failure on an existing fragment path is caught, reported
through the error reporter, and leaves that token verbatim, while the other
tokens of the same input are substituted normally and the call still
returns. -/
theorem c7_error_caught_and_reported (fs : FS) (n : Nat) (a b y : List Char)
    (ha : ∀ ch ∈ a, isClassChar ch = true) (hb : ∀ ch ∈ b, isClassChar ch = true)
    (hA : lookupFS fs (tokenPath (mkTok2 "app".toList a)) = some none)
    (hB : lookupFS fs (tokenPath (mkTok2 "app".toList b)) = some (some y))
    (hy : findMatch y = none) :
    replacePlaceholder fs (n+2) (mkTok2 "app".toList a ++ mkTok2 "app".toList b) =
      some (mkTok2 "app".toList a ++ y, [tokenPath (mkTok2 "app".toList a)]) := by
  have hk : IsKind "app".toList := Or.inl rfl
  have hfm1 : findMatch (mkTok2 "app".toList a ++ mkTok2 "app".toList b) =
      some ([], mkTok2 "app".toList a, mkTok2 "app".toList b) :=
    findMatch_mkTok2 hk ha _
  have hfm2 : findMatch (mkTok2 "app".toList b) =
      some ([], mkTok2 "app".toList b, []) := by
    have := findMatch_mkTok2 hk hb []
    simpa using this
  have hsb : tokenIsSvg (mkTok2 "app".toList b) = false := by
    rw [tokenIsSvg_mkTok2 hk hb]
    decide
  have h2 : handleToken fs (replacePlaceholder fs (n+1)) (mkTok2 "app".toList b) =
      some (y, []) := by
    rw [handleToken_readable hB, tokenWrap_not_svg hsb]
    exact resolve_of_findMatch_none fs n hy
  have h := resolve_two hfm1 hfm2 (handleToken_unreadable hA) h2
  simpa using h

/-- The fragment tree of the read-failure witness: the `bad` fragment exists
but reading it throws, the `ok` fragment holds `GOOD`. -/
def fsErr : FS := [
  ("components/app/bad/bad.html".toList, none),
  ("components/app/ok/ok.html".toList, some "GOOD".toList)]

theorem c7_error_caught_and_reported_witness :
    replacePlaceholder fsErr 2
      (mkTok2 "app".toList "bad".toList ++ mkTok2 "app".toList "ok".toList) =
      some (mkTok2 "app".toList "bad".toList ++ "GOOD".toList,
        ["components/app/bad/bad.html".toList]) := by
  have h := c7_error_caught_and_reported fsErr 0 "bad".toList "ok".toList
    "GOOD".toList (by decide) (by decide) (by decide) (by decide) (by decide)
  rw [show tokenPath (mkTok2 "app".toList "bad".toList) =
    "components/app/bad/bad.html".toList from by decide] at h
  exact h

/-- The fragment tree of the C6 counterexample: the fragment file addressed
by category `cat` and name `name` exists with content `X`. -/
def fsC6 : FS := [("components/app/cat/name.html".toList, some "X".toList)]

/-- C6 counterexample: the spec-shaped three-part token
`\x7bapp:\x7bcat\x7d:\x7bname\x7d\x7d` is NOT recognised: although the fragment
`components/app/cat/name.html` exists with content `X`, resolving an input
consisting of that token leaves it verbatim; the form the code actually
recognises is `\x7bapp:\x7bcat:\x7bname\x7d\x7d\x7d`, which is substituted. -/
theorem c6_token_syntax_counterexample :
    replacePlaceholder fsC6 2 "\x7bapp:\x7bcat\x7d:\x7bname\x7d\x7d".toList =
      some ("\x7bapp:\x7bcat\x7d:\x7bname\x7d\x7d".toList, []) ∧
    replacePlaceholder fsC6 2 "\x7bapp:\x7bcat:\x7bname\x7d\x7d\x7d".toList =
      some ("X".toList, []) ∧
    "\x7bapp:\x7bcat\x7d:\x7bname\x7d\x7d".toList ≠ "X".toList :=
  ⟨by decide, by decide, by decide⟩

/-- C6 (amended): the three-part placeholder form recognised by resolve is
`\x7bkind:\x7bcategory:\x7bname\x7d\x7d\x7d` (not `\x7bkind:\x7bcategory\x7d:\x7bname\x7d\x7d`); for a
non-svg kind, an input consisting of such a token whose fragment exists and
is readable is substituted with the fragment content. -/
theorem c6_three_part_amended (fs : FS) (n : Nat) (k c g y : List Char)
    (hk : k = "app".toList ∨ k = "deferred".toList)
    (hcne : c ≠ [])
    (hc : ∀ ch ∈ c, isDot ch = true ∧ ch ≠ ':' ∧ ch ≠ '{' ∧ ch ≠ '}')
    (hgne : g ≠ [])
    (hg : ∀ ch ∈ g, isDot ch = true ∧ ch ≠ ':' ∧ ch ≠ '{' ∧ ch ≠ '}')
    (hl : lookupFS fs (tokenPath (mkTok3 k c g)) = some (some y))
    (hy : findMatch y = none) :
    replacePlaceholder fs (n+2) (mkTok3 k c g) = some (y, []) := by
  have hk' : IsKind k := by
    rcases hk with h | h
    · exact Or.inl h
    · exact Or.inr (Or.inl h)
  have hfm := findMatch_mkTok3 hk' hcne
    (fun ch hch => ⟨(hc ch hch).1, (hc ch hch).2.1, (hc ch hch).2.2.2⟩) hgne
    (fun ch hch => ⟨(hg ch hch).1, (hg ch hch).2.1⟩)
  have hsvg : tokenIsSvg (mkTok3 k c g) = false := by
    rw [tokenIsSvg_mkTok3 hk'
      (fun ch hch => ⟨(hc ch hch).2.2.1, (hc ch hch).2.2.2, (hc ch hch).2.1⟩)
      (fun ch hch => ⟨(hg ch hch).2.2.1, (hg ch hch).2.2.2, (hg ch hch).2.1⟩)]
    rcases hk with h | h <;> subst h <;> decide
  apply resolve_single hfm
  rw [handleToken_readable hl, tokenWrap_not_svg hsvg]
  exact resolve_of_findMatch_none fs n hy

theorem c6_three_part_amended_witness :
    replacePlaceholder fsC6 2 (mkTok3 "app".toList "cat".toList "name".toList) =
      some ("X".toList, []) :=
  c6_three_part_amended fsC6 0 "app".toList "cat".toList "name".toList "X".toList
    (Or.inl rfl) (by decide) (by decide) (by decide) (by decide) (by decide)
    (by decide)

/-! ### Termination and divergence (C8)

The step relation `StepR` records on which strings the function recurses.
Divergence: a reachable resolution cycle forces `none` at every fuel.
Termination: on a cycle-free input the reachable strings form a finite set
(everything reachable is a stored fragment content, possibly banner-wrapped),
so the step relation is well-founded there and a sufficient fuel exists. -/

theorem transGen_head_cases {α : Type} {r : α → α → Prop} {a b : α}
    (h : Relation.TransGen r a b) : r a b ∨ ∃ c, r a c ∧ Relation.TransGen r c b := by
  induction h with
  | single h1 => exact Or.inl h1
  | tail hab hbc ih =>
    rcases ih with h1 | ⟨d, had, hdb⟩
    · exact Or.inr ⟨_, h1, Relation.TransGen.single hbc⟩
    · exact Or.inr ⟨d, had, hdb.tail hbc⟩

theorem cyclicFrom_step {fs : FS} {s : List Char} (h : CyclicFrom fs s) :
    ∃ w, StepR fs s w ∧ CyclicFrom fs w := by
  obtain ⟨t, hst, hcyc⟩ := h
  rcases Relation.ReflTransGen.cases_head hst with heq | ⟨u, hsu, hut⟩
  · subst heq
    rcases transGen_head_cases hcyc with h1 | ⟨d, hsd, hds⟩
    · exact ⟨s, h1, ⟨s, Relation.ReflTransGen.refl, hcyc⟩⟩
    · exact ⟨d, hsd, ⟨s, hds.to_reflTransGen, hcyc⟩⟩
  · exact ⟨u, hsu, ⟨t, hut, hcyc⟩⟩

theorem resolve_none_of_cyclic (fs : FS) :
    ∀ (n : Nat) (s : List Char), CyclicFrom fs s →
      replacePlaceholder fs n s = none := by
  intro n
  induction n with
  | zero => intro s _; rfl
  | succ n ih =>
    intro s hc
    obtain ⟨w, hstep, hcycw⟩ := cyclicFrom_step hc
    obtain ⟨m, c, hmem, hl, hw⟩ := hstep
    show processSegs fs (replacePlaceholder fs n) (tokenize s) = none
    apply processSegs_none_of_tok hmem
    rw [handleToken_readable hl, ← hw]
    exact ih w hcycw

/-- The banner-wrapped content for a path, as produced for svg tokens. -/
def wrapCand (p c : List Char) : List Char :=
  "<!-- START ".toList ++ p ++ " -->\n".toList ++ c ++
    ("<!-- END ".toList ++ p ++ " -->\n".toList)

/-- Every string the resolution can recurse on, starting from `s`: the input
itself, and each stored fragment content bare or banner-wrapped. -/
def candidates (fs : FS) (s : List Char) : List (List Char) :=
  s :: fs.flatMap (fun pv =>
    match pv.2 with
    | some c => [c, wrapCand pv.1 c]
    | none => [])

theorem lookupFS_mem {fs : FS} {p : List Char} {v : Option (List Char)}
    (h : lookupFS fs p = some v) : (p, v) ∈ fs := by
  induction fs with
  | nil => simp [lookupFS] at h
  | cons e rest ih =>
    obtain ⟨q, w⟩ := e
    simp only [lookupFS] at h
    split at h
    · rename_i hq
      injection h with h'
      subst h'
      subst hq
      exact List.mem_cons_self _ _
    · exact List.mem_cons_of_mem _ (ih h)

theorem stepR_mem_candidates {fs : FS} {s u w : List Char} (h : StepR fs u w) :
    w ∈ candidates fs s := by
  obtain ⟨m, c, hmem, hl, hw⟩ := h
  have hfs := lookupFS_mem hl
  subst hw
  apply List.mem_cons_of_mem
  apply List.mem_flatMap.mpr
  refine ⟨(tokenPath m, some c), hfs, ?_⟩
  by_cases hsvg : tokenIsSvg m = true
  · rw [tokenWrap_svg hsvg]
    exact List.mem_cons_of_mem _ (List.mem_singleton.mpr rfl)
  · have hsvg' : tokenIsSvg m = false := by simpa using hsvg
    rw [tokenWrap_not_svg hsvg']
    exact List.mem_cons_self _ _

/-- The strings reachable from `s` through resolution steps. -/
def ReachSet (fs : FS) (s : List Char) : Set (List Char) :=
  {t | Relation.ReflTransGen (StepR fs) s t}

theorem reachSet_subset (fs : FS) (s : List Char) :
    ReachSet fs s ⊆ {t | t ∈ candidates fs s} := by
  intro t ht
  induction ht with
  | refl => exact List.mem_cons_self _ _
  | tail hsu hut ih => exact stepR_mem_candidates hut

theorem reachSet_finite (fs : FS) (s : List Char) : (ReachSet fs s).Finite :=
  Set.Finite.subset (candidates fs s).finite_toSet (reachSet_subset fs s)

theorem acc_of_not_cyclic {fs : FS} {s : List Char} (hnc : ¬ CyclicFrom fs s) :
    ∀ t, Relation.ReflTransGen (StepR fs) s t →
      Acc (fun w u => StepR fs u w) t := by
  have hfin : Finite (ReachSet fs s) := (reachSet_finite fs s).to_subtype
  have hirr : ∀ a : ReachSet fs s,
      ¬ Relation.TransGen (fun a b : ReachSet fs s => StepR fs b.1 a.1) a a := by
    intro a ha
    apply hnc
    refine ⟨a.1, a.2, ?_⟩
    exact (Relation.transGen_swap).mp
      (Relation.TransGen.lift Subtype.val (fun x y hr => hr) ha)
  have hWFt : WellFounded
      (Relation.TransGen (fun a b : ReachSet fs s => StepR fs b.1 a.1)) :=
    @Finite.wellFounded_of_trans_of_irrefl _ hfin _ inferInstance ⟨hirr⟩
  have hsub : Subrelation (fun a b : ReachSet fs s => StepR fs b.1 a.1)
      (Relation.TransGen (fun a b : ReachSet fs s => StepR fs b.1 a.1)) :=
    fun h => Relation.TransGen.single h
  have hWF : WellFounded (fun a b : ReachSet fs s => StepR fs b.1 a.1) :=
    Subrelation.wf hsub hWFt
  intro t hreach
  have main : ∀ a : ReachSet fs s, Acc (fun w u => StepR fs u w) a.1 := by
    intro a
    refine hWF.induction (C := fun a => Acc (fun w u => StepR fs u w) a.1) a ?_
    intro x ih
    constructor
    intro w hw
    have hwreach : w ∈ ReachSet fs s := Relation.ReflTransGen.tail x.2 hw
    exact ih ⟨w, hwreach⟩ hw
  exact main ⟨t, hreach⟩

theorem processSegs_terminates {fs : FS} {segs : List Seg}
    (h : ∀ m c, Seg.tok m ∈ segs → lookupFS fs (tokenPath m) = some (some c) →
      Terminates fs (tokenWrap m c)) :
    ∃ N y, processSegs fs (replacePlaceholder fs N) segs = some y := by
  induction segs with
  | nil => exact ⟨0, ([], []), rfl⟩
  | cons seg rest ih =>
    obtain ⟨N1, y1, hy1⟩ := ih (fun m c hm hl => h m c (List.mem_cons_of_mem _ hm) hl)
    obtain ⟨r1, e1⟩ := y1
    cases seg with
    | lit l =>
      refine ⟨N1, (l ++ r1, e1), ?_⟩
      simp only [processSegs]
      rw [hy1]
    | tok m =>
      cases hl : lookupFS fs (tokenPath m) with
      | none =>
        refine ⟨N1, (m ++ r1, e1), ?_⟩
        simp only [processSegs]
        rw [handleToken_missing hl, hy1]
        rfl
      | some v =>
        cases v with
        | none =>
          refine ⟨N1, (m ++ r1, tokenPath m :: e1), ?_⟩
          simp only [processSegs]
          rw [handleToken_unreadable hl, hy1]
          rfl
        | some c =>
          obtain ⟨N2, y2, hy2⟩ := h m c (List.mem_cons_self _ _) hl
          obtain ⟨r2, e2⟩ := y2
          refine ⟨max N1 N2, (r2 ++ r1, e2 ++ e1), ?_⟩
          have h1 : processSegs fs (replacePlaceholder fs (max N1 N2)) rest =
              some (r1, e1) :=
            processSegs_mono
              (fun t x hx => replacePlaceholder_mono (le_max_left N1 N2) hx) hy1
          have h2 : replacePlaceholder fs (max N1 N2) (tokenWrap m c) =
              some (r2, e2) :=
            replacePlaceholder_mono (le_max_right N1 N2) hy2
          simp only [processSegs]
          rw [handleToken_readable hl, h2, h1]

theorem terminates_of_acc {fs : FS} {t : List Char}
    (hacc : Acc (fun w u => StepR fs u w) t) : Terminates fs t := by
  induction hacc with
  | intro t hstep ih =>
    obtain ⟨N, y, hy⟩ := processSegs_terminates
      (fun m c hm hl => ih (tokenWrap m c) ⟨m, c, hm, hl, rfl⟩)
    exact ⟨N + 1, y, hy⟩

/-- C8: resolution terminates on `s` exactly when no resolution cycle is
reachable from `s` (a fragment including, directly or transitively, a
placeholder resolving back to itself); moreover on a cyclic input the
recursion exceeds every depth bound. -/
theorem c8_terminates_iff_acyclic (fs : FS) (s : List Char) :
    (Terminates fs s ↔ ¬ CyclicFrom fs s) ∧
    (CyclicFrom fs s → ∀ n, replacePlaceholder fs n s = none) := by
  constructor
  · constructor
    · intro hterm hcyc
      obtain ⟨n, r, hr⟩ := hterm
      rw [resolve_none_of_cyclic fs n s hcyc] at hr
      exact Option.noConfusion hr
    · intro hnc
      exact terminates_of_acc (acc_of_not_cyclic hnc s Relation.ReflTransGen.refl)
  · intro hcyc n
    exact resolve_none_of_cyclic fs n s hcyc

/-- The self-including fragment tree of the divergence witness: fragment `a`
holds its own token. -/
def fsCyc : FS :=
  [("components/app/a/a.html".toList, some (mkTok2 "app".toList "a".toList))]

theorem c8_terminates_iff_acyclic_witness :
    Terminates fsCyc "x".toList ∧
    (∀ n, replacePlaceholder fsCyc n (mkTok2 "app".toList "a".toList) = none) := by
  constructor
  · apply (c8_terminates_iff_acyclic fsCyc "x".toList).1.mpr
    rintro ⟨t, hreach, hcyc⟩
    have hnostep : ∀ w, ¬ StepR fsCyc "x".toList w := by
      rintro w ⟨m, c, hmem, -, -⟩
      rw [show tokenize "x".toList = [Seg.lit "x".toList] from by decide] at hmem
      exact Seg.noConfusion (List.mem_singleton.mp hmem)
    rcases Relation.ReflTransGen.cases_head hreach with heq | ⟨u, hsu, -⟩
    · subst heq
      rcases transGen_head_cases hcyc with h1 | ⟨d, hsd, -⟩
      · exact hnostep _ h1
      · exact hnostep d hsd
    · exact hnostep u hsu
  · intro n
    apply (c8_terminates_iff_acyclic fsCyc (mkTok2 "app".toList "a".toList)).2 ?_ n
    refine ⟨mkTok2 "app".toList "a".toList, Relation.ReflTransGen.refl,
      Relation.TransGen.single ?_⟩
    exact ⟨mkTok2 "app".toList "a".toList, mkTok2 "app".toList "a".toList,
      by decide, by decide, by decide⟩

end Kickstart
